import Mathlib

/-!
Verification development for the `mdserve` core (src/src/app.rs): the
tracked-document store, the filesystem event classifier, the watch pump
and the HTTP document routes, shallowly embedded in Lean.

Modelling conventions:
* Paths are plain strings; `/` separates components.
* `SystemTime` modification stamps are naturals ordered as in the source
  (`current_modified > tracked.last_modified`).
* The filesystem is a value `FileSys` giving, per path, the result of
  `fs::metadata(..).modified()` (`meta`), of `fs::read_to_string` (`read`),
  of `Path::canonicalize` (`canon`, `none` = failure) and whether the path
  is a regular file (`isFileFlag`); `Path::exists` is `meta` succeeding,
  as in Rust's `fs::metadata(path).is_ok()`.
* The external markdown renderer (spec §6: pure and total, never throws)
  is a parameter `render : String → String`; `markdown_to_html` wraps it
  as the source wraps the markdown crate.
* The broadcast channel is modelled by the list of `ServerMessage`s
  published while handling one event, returned alongside the new state;
  handler and send happen under one lock acquisition in the source, so an
  event handler is one atomic state transition producing that list.
-/

/-- `u8::eq_ignore_ascii_case` lower-casing of one character. -/
def asciiLower (c : Char) : Char :=
  if 'A' ≤ c ∧ c ≤ 'Z' then Char.ofNat (c.toNat + 32) else c

/-- ASCII lower-casing of a string, `str::to_ascii_lowercase`. -/
def lowerStr (s : String) : String := ⟨s.data.map asciiLower⟩

/-- `str::eq_ignore_ascii_case`: equal after ASCII lower-casing. -/
def eqIgnoreAsciiCase (a b : String) : Bool := lowerStr a == lowerStr b

/-- `Path::file_name` on a string path: the part after the last `/`;
`none` for an empty last component or the special names `.` and `..`. -/
def fileNameOf (p : String) : Option String :=
  let last : String := ⟨(p.data.reverse.takeWhile (· != '/')).reverse⟩
  if last = "" ∨ last = "." ∨ last = ".." then none else some last

/-- Extension of a bare file name, Rust `Path::extension` semantics: the
part after the final `.`, unless there is no `.` or the only `.` is the
leading character (hidden files like `.gitignore` have no extension). -/
def extensionOfName (n : String) : Option String :=
  match n.data.reverse.span (· != '.') with
  | (_, []) => none
  | (extRev, _ :: stemRev) => if stemRev = [] then none else some ⟨extRev.reverse⟩

/-- `Path::extension` of a path string. -/
def extensionOf (p : String) : Option String := (fileNameOf p).bind extensionOfName

/-- `is_markdown_file` (app.rs:80): case-insensitive extension match
against `md` / `markdown`. -/
def is_markdown_file (p : String) : Bool :=
  match extensionOf p with
  | some ext => eqIgnoreAsciiCase ext "md" || eqIgnoreAsciiCase ext "markdown"
  | none => false

/-- `is_image_file` (app.rs:689): lower-cased extension in the image set. -/
def is_image_file (file_path : String) : Bool :=
  let ext := (extensionOf file_path).getD ""
  let l := lowerStr ext
  l == "png" || l == "jpg" || l == "jpeg" || l == "gif" || l == "svg" ||
    l == "webp" || l == "bmp" || l == "ico"

/-- An I/O error (`std::io::Error`), abstracted to a code. -/
structure IoErr where
  code : Nat
deriving DecidableEq, Repr

/-- The filesystem as seen through the `std::fs` calls the source makes. -/
structure FileSys where
  meta : String → Except IoErr Nat
  read : String → Except IoErr String
  canon : String → Option String
  isFileFlag : String → Bool

/-- `Path::exists`: `fs::metadata(path).is_ok()`. -/
def FileSys.pathExists (fs : FileSys) (p : String) : Bool := (fs.meta p).isOk

/-- `Path::is_file`: metadata succeeds and names a regular file. -/
def FileSys.isFile (fs : FileSys) (p : String) : Bool :=
  (fs.meta p).isOk && fs.isFileFlag p

/-- `path.canonicalize().unwrap_or(path)` as used throughout the source. -/
def canonicalOr (fs : FileSys) (p : String) : String := (fs.canon p).getD p

/-- `str` prefix test on the underlying characters. -/
def strStartsWith (pre s : String) : Bool := pre.data.isPrefixOf s.data

/-- `str::ends_with` on the underlying characters. -/
def strEndsWith (s suffix : String) : Bool := suffix.data.isSuffixOf s.data

/-- `canonical.strip_prefix(base).unwrap_or(canonical)` stringified: drop
the base directory and its separator when base is a proper path prefix. -/
def stripPrefixKey (base p : String) : String :=
  if p = base then ""
  else if strStartsWith (base ++ "/") p then ⟨p.data.drop (base.data.length + 1)⟩
  else p

/-- `ServerMessage` (app.rs:53). -/
inductive ServerMessage
  | Reload
  | Pong
deriving DecidableEq, Repr

/-- `TrackedFile` (app.rs:87). -/
structure TrackedFile where
  path : String
  last_modified : Nat
  html : String
deriving DecidableEq, Repr

/-- The `HashMap<String, TrackedFile>` as an association list with
replace-on-insert semantics; iteration order is irrelevant because every
consumer of the key set sorts it. -/
abbrev TrackedMap := List (String × TrackedFile)

/-- `HashMap::get` / `get_mut` lookup. -/
def findVal : TrackedMap → String → Option TrackedFile
  | [], _ => none
  | (k, v) :: rest, key => if k = key then some v else findVal rest key

/-- `HashMap::contains_key`. -/
def containsKey (m : TrackedMap) (key : String) : Bool := (findVal m key).isSome

/-- `HashMap::insert`: replace the entry under the key, or append it. -/
def upsert : TrackedMap → String → TrackedFile → TrackedMap
  | [], key, v => [(key, v)]
  | (k, v') :: rest, key, v =>
    if k = key then (key, v) :: rest else (k, v') :: upsert rest key v

/-- `HashMap::keys` (as a list, in storage order). -/
def keysOf (m : TrackedMap) : List String := m.map Prod.fst

/-- `MarkdownState` (app.rs:93). The broadcast sender is not part of the
state value: published messages are returned by the event handlers. -/
structure MarkdownState where
  base_dir : String
  tracked_files : TrackedMap
  is_directory_mode : Bool
deriving DecidableEq, Repr

/-- `MarkdownState::markdown_to_html` (app.rs:187): the external renderer
applied with its fixed configuration; total, never fails. -/
def markdown_to_html (render : String → String) (content : String) : String :=
  render content

/-- Read and render one initial file and insert it, the body of the loop
in `MarkdownState::new` (app.rs:105-126). -/
def initInsert (fs : FileSys) (render : String → String) (base_dir : String)
    (m : TrackedMap) (file_path : String) : Except IoErr TrackedMap := do
  let last_modified ← fs.meta file_path
  let content ← fs.read file_path
  let html := markdown_to_html render content
  let canonical := canonicalOr fs file_path
  let key := stripPrefixKey base_dir canonical
  pure (upsert m key ⟨canonical, last_modified, html⟩)

/-- Fold `initInsert` over the initial file list. -/
def initFiles (fs : FileSys) (render : String → String) (base_dir : String) :
    List String → TrackedMap → Except IoErr TrackedMap
  | [], m => pure m
  | p :: rest, m => do
    let m' ← initInsert fs render base_dir m p
    initFiles fs render base_dir rest m'

/-- `MarkdownState::new` (app.rs:101): all-or-nothing construction. -/
def MarkdownState.new (fs : FileSys) (render : String → String) (base_dir : String)
    (file_paths : List String) (is_directory_mode : Bool) :
    Except IoErr MarkdownState := do
  let tracked ← initFiles fs render base_dir file_paths []
  pure ⟨base_dir, tracked, is_directory_mode⟩

/-- `MarkdownState::get_sorted_filenames` (app.rs:140): clone the keys and
sort them ascending (`Vec::sort` = stable lexicographic sort). -/
def MarkdownState.get_sorted_filenames (st : MarkdownState) : List String :=
  List.insertionSort (· ≤ ·) (keysOf st.tracked_files)

/-- `MarkdownState::refresh_file` (app.rs:146): re-stat; re-read and
re-render only when strictly newer; untracked key is a silent no-op. -/
def MarkdownState.refresh_file (fs : FileSys) (render : String → String)
    (st : MarkdownState) (filename : String) : Except IoErr MarkdownState :=
  match findVal st.tracked_files filename with
  | none => pure st
  | some tracked => do
    let current_modified ← fs.meta tracked.path
    if current_modified > tracked.last_modified then do
      let content ← fs.read tracked.path
      let html := markdown_to_html render content
      let tracked_files := upsert st.tracked_files filename ⟨tracked.path, current_modified, html⟩
      pure { st with tracked_files := tracked_files }
    else
      pure st

/-- `MarkdownState::add_tracked_file` (app.rs:161): derive the key, no-op
when already tracked, otherwise read, render and insert. -/
def MarkdownState.add_tracked_file (fs : FileSys) (render : String → String)
    (st : MarkdownState) (file_path : String) : Except IoErr MarkdownState :=
  let key := stripPrefixKey st.base_dir file_path
  if containsKey st.tracked_files key then pure st
  else do
    let last_modified ← fs.meta file_path
    let content ← fs.read file_path
    let tracked_files := upsert st.tracked_files key ⟨file_path, last_modified, markdown_to_html render content⟩
    pure { st with tracked_files := tracked_files }

/-- `handle_markdown_file_change` (app.rs:201): refresh a tracked key or
admit a new one in directory mode; publish `Reload` only when the store
operation succeeded. The whole body runs under one lock acquisition; the
published messages are returned with the post-mutation state. -/
def handle_markdown_file_change (fs : FileSys) (render : String → String)
    (path : String) (st : MarkdownState) : MarkdownState × List ServerMessage :=
  if ¬ is_markdown_file path then (st, [])
  else
    let canonical := canonicalOr fs path
    let key := stripPrefixKey st.base_dir canonical
    if containsKey st.tracked_files key then
      match st.refresh_file fs render key with
      | .ok st' => (st', [ServerMessage.Reload])
      | .error _ => (st, [])
    else if st.is_directory_mode then
      match st.add_tracked_file fs render canonical with
      | .ok st' => (st', [ServerMessage.Reload])
      | .error _ => (st, [])
    else (st, [])

/-- `notify::event::RenameMode`. -/
inductive RenameMode
  | Both
  | From
  | To
  | Any
  | Other
deriving DecidableEq, Repr

/-- `notify::EventKind`, restricted to the shapes the source matches on:
`Create(_)`, `Modify(Data(_))`, `Modify(Name(mode))`, other `Modify(_)`
sub-kinds, `Remove(_)`, and everything else (`Access`, `Any`, ...). -/
inductive EventKind
  | Create
  | ModifyData
  | ModifyName (mode : RenameMode)
  | ModifyOther
  | Remove
  | Other
deriving DecidableEq, Repr

/-- `notify::Event`: a kind plus its associated paths. -/
structure Event where
  kind : EventKind
  paths : List String
deriving DecidableEq, Repr

/-- One iteration of the `for path in &event.paths` loop in
`handle_file_event` (app.rs:260-286), threading state and appending any
published messages. -/
def processEventPath (fs : FileSys) (render : String → String) (kind : EventKind)
    (acc : MarkdownState × List ServerMessage) (path : String) :
    MarkdownState × List ServerMessage :=
  if is_markdown_file path then
    match kind with
    | .Create | .ModifyData =>
      let res := handle_markdown_file_change fs render path acc.1
      (res.1, acc.2 ++ res.2)
    | _ => acc
  else if fs.isFile path && is_image_file path then
    match kind with
    | .ModifyData | .ModifyName _ | .ModifyOther | .Create | .Remove =>
      (acc.1, acc.2 ++ [ServerMessage.Reload])
    | _ => acc
  else acc

/-- `handle_file_event` (app.rs:226): the classifier plus dispatch run by
the watch pump for one raw event. -/
def handle_file_event (fs : FileSys) (render : String → String) (event : Event)
    (st : MarkdownState) : MarkdownState × List ServerMessage :=
  match event.kind with
  | .ModifyName rename_mode =>
    match rename_mode with
    | .Both =>
      match event.paths with
      | [_, new_path] => handle_markdown_file_change fs render new_path st
      | _ => (st, [])
    | .From => (st, [])
    | .To =>
      match event.paths.head? with
      | some path => handle_markdown_file_change fs render path st
      | none => (st, [])
    | .Any =>
      match event.paths.head? with
      | some path =>
        if fs.pathExists path then handle_markdown_file_change fs render path st
        else (st, [])
      | none => (st, [])
    | .Other => (st, [])
  | _ => event.paths.foldl (processEventPath fs render event.kind) (st, [])

/-- HTTP status codes the routes produce. -/
inductive HttpStatus
  | ok
  | notFound
  | internalServerError
  | forbidden
deriving DecidableEq, Repr

/-- `render_markdown` (app.rs:554) reduced to its store-visible contract:
the embedded template is static glue (spec §1: out of scope), so the
response is the tracked artifact on success and 404 for an untracked key. -/
def render_markdown (st : MarkdownState) (current_file : String) :
    HttpStatus × String :=
  match findVal st.tracked_files current_file with
  | some tracked => (HttpStatus.ok, tracked.html)
  | none => (HttpStatus.notFound, "File not found")

/-- `let _ = state.refresh_file(..)`: keep the refreshed state on success,
the untouched state on error. -/
def refreshOrKeep (fs : FileSys) (render : String → String) (st : MarkdownState)
    (filename : String) : MarkdownState :=
  match st.refresh_file fs render filename with
  | .ok st' => st'
  | .error _ => st

/-- `serve_html_root` (app.rs:461): serve the first sorted filename, 500
when no files are tracked. -/
def serve_html_root (fs : FileSys) (render : String → String) (st : MarkdownState) :
    (HttpStatus × String) × MarkdownState :=
  match st.get_sorted_filenames.head? with
  | none => ((HttpStatus.internalServerError, "No files available to serve"), st)
  | some filename =>
    let st' := refreshOrKeep fs render st filename
    (render_markdown st' filename, st')

/-- Path prefix test used by `canonical_path.starts_with(&state.base_dir)`
(component-wise in Rust, rendered on slash-separated strings). -/
def pathStartsWith (base p : String) : Bool :=
  p == base || strStartsWith (base ++ "/") p

/-- `serve_static_file_inner` (app.rs:643): canonicalize under the base
directory, refuse escapes, and return the raw bytes. -/
def serve_static_file_inner (fs : FileSys) (filename : String) (st : MarkdownState) :
    HttpStatus × String :=
  let full_path := st.base_dir ++ "/" ++ filename
  match fs.canon full_path with
  | some canonical_path =>
    if ¬ pathStartsWith st.base_dir canonical_path then
      (HttpStatus.forbidden, "Access denied")
    else
      match fs.read canonical_path with
      | .ok contents => (HttpStatus.ok, contents)
      | .error _ => (HttpStatus.notFound, "File not found")
  | none => (HttpStatus.notFound, "File not found")

/-- `serve_file` (app.rs:479): the `/*filepath` route. The store is
consulted and refreshed only for paths ending in the exact lower-case
document suffixes; image paths go to the static handler; all else is 404. -/
def serve_file (fs : FileSys) (render : String → String) (filepath : String)
    (st : MarkdownState) : (HttpStatus × String) × MarkdownState :=
  if strEndsWith filepath ".md" || strEndsWith filepath ".markdown" then
    if ¬ containsKey st.tracked_files filepath then
      ((HttpStatus.notFound, "File not found"), st)
    else
      let st' := refreshOrKeep fs render st filepath
      (render_markdown st' filepath, st')
  else if is_image_file filepath then
    (serve_static_file_inner fs filepath st, st)
  else
    ((HttpStatus.notFound, "File not found"), st)

/-- A filesystem giving every path the same stat and read result, with
identity canonicalization; concrete test fixture. -/
def constFS (m : Except IoErr Nat) (r : Except IoErr String) : FileSys :=
  ⟨fun _ => m, fun _ => r, fun p => some p, fun _ => true⟩

/-- A tracked entry for `/r/a.md` with a given timestamp; test fixture. -/
def sampleEntry (mt : Nat) : TrackedFile := ⟨"/r/a.md", mt, "H"⟩

/-- A store rooted at `/r`; test fixture. -/
def sampleState (dyn : Bool) (files : TrackedMap) : MarkdownState := ⟨"/r", files, dyn⟩

/-! ### Map lemmas -/

theorem findVal_upsert_self (m : TrackedMap) (k : String) (v : TrackedFile) :
    findVal (upsert m k v) k = some v := by
  induction m with
  | nil => simp [upsert, findVal]
  | cons hd tl ih =>
    obtain ⟨k', v'⟩ := hd
    by_cases h : k' = k
    · simp [upsert, findVal, h]
    · simp [upsert, findVal, h, ih]

theorem findVal_upsert_ne (m : TrackedMap) (k k' : String) (v : TrackedFile)
    (h : k' ≠ k) : findVal (upsert m k v) k' = findVal m k' := by
  induction m with
  | nil =>
    simp only [upsert, findVal]
    rw [if_neg (fun hh => h hh.symm)]
  | cons hd tl ih =>
    obtain ⟨k₀, v₀⟩ := hd
    by_cases hk : k₀ = k
    · subst hk
      simp only [upsert, if_pos rfl, findVal]
      rw [if_neg (fun hh => h hh.symm), if_neg (fun hh => h hh.symm)]
    · simp only [upsert, if_neg hk, findVal]
      by_cases hk' : k₀ = k'
      · rw [if_pos hk', if_pos hk']
      · rw [if_neg hk', if_neg hk']
        exact ih

theorem keysOf_upsert_of_contains (m : TrackedMap) (k : String) (v : TrackedFile)
    (h : containsKey m k = true) : keysOf (upsert m k v) = keysOf m := by
  induction m with
  | nil => simp [containsKey, findVal] at h
  | cons hd tl ih =>
    obtain ⟨k₀, v₀⟩ := hd
    by_cases hk : k₀ = k
    · simp [upsert, keysOf, hk]
    · simp only [containsKey, findVal, if_neg hk] at h
      have htl : keysOf (upsert tl k v) = keysOf tl := ih h
      simp only [upsert, if_neg hk, keysOf, List.map_cons]
      rw [show List.map Prod.fst (upsert tl k v) = keysOf tl from htl]
      rfl

theorem keysOf_upsert_of_not_contains (m : TrackedMap) (k : String) (v : TrackedFile)
    (h : containsKey m k = false) : keysOf (upsert m k v) = keysOf m ++ [k] := by
  induction m with
  | nil => simp [upsert, keysOf]
  | cons hd tl ih =>
    obtain ⟨k₀, v₀⟩ := hd
    by_cases hk : k₀ = k
    · subst hk
      simp [containsKey, findVal] at h
    · simp only [containsKey, findVal, if_neg hk] at h
      have htl : keysOf (upsert tl k v) = keysOf tl ++ [k] := ih h
      simp only [upsert, if_neg hk, keysOf, List.map_cons]
      rw [show List.map Prod.fst (upsert tl k v) = keysOf tl ++ [k] from htl]
      rfl

theorem containsKey_iff_mem (m : TrackedMap) (k : String) :
    containsKey m k = true ↔ k ∈ keysOf m := by
  induction m with
  | nil => simp [containsKey, findVal, keysOf]
  | cons hd tl ih =>
    obtain ⟨k₀, v₀⟩ := hd
    by_cases hk : k₀ = k
    · simp [containsKey, findVal, keysOf, hk]
    · simp only [containsKey, findVal, if_neg hk, keysOf, List.map_cons, List.mem_cons]
      rw [← keysOf] at *
      constructor
      · intro h
        exact Or.inr (ih.mp h)
      · rintro (h | h)
        · exact absurd h.symm hk
        · exact ih.mpr h

theorem mem_keysOf_upsert (m : TrackedMap) (k k' : String) (v : TrackedFile) :
    k' ∈ keysOf (upsert m k v) ↔ k' ∈ keysOf m ∨ k' = k := by
  by_cases h : containsKey m k = true
  · rw [keysOf_upsert_of_contains m k v h]
    constructor
    · exact Or.inl
    · rintro (hm | rfl)
      · exact hm
      · exact (containsKey_iff_mem m k').mp h
  · rw [keysOf_upsert_of_not_contains m k v (by simpa using h)]
    simp

theorem count_keysOf_upsert_new (m : TrackedMap) (k : String) (v : TrackedFile)
    (h : containsKey m k = false) :
    (keysOf (upsert m k v)).count k = 1 := by
  rw [keysOf_upsert_of_not_contains m k v h]
  have hk : k ∉ keysOf m := fun hm => by
    rw [← containsKey_iff_mem] at hm
    rw [hm] at h
    simp at h
  rw [List.count_append]
  simp [List.count_eq_zero_of_not_mem hk]

/-! ### Store operation lemmas -/

theorem refresh_file_of_none (fs : FileSys) (render : String → String)
    (st : MarkdownState) (filename : String)
    (h : findVal st.tracked_files filename = none) :
    st.refresh_file fs render filename = .ok st := by
  unfold MarkdownState.refresh_file
  rw [h]
  rfl

theorem refresh_file_of_stale (fs : FileSys) (render : String → String)
    (st : MarkdownState) (filename : String) (tracked : TrackedFile) (m : Nat)
    (h : findVal st.tracked_files filename = some tracked)
    (hm : fs.meta tracked.path = .ok m)
    (hle : ¬ m > tracked.last_modified) :
    st.refresh_file fs render filename = .ok st := by
  unfold MarkdownState.refresh_file
  rw [h]
  show (fs.meta tracked.path >>= fun current_modified => _) = _
  rw [hm]
  show (if m > tracked.last_modified then _ else pure st) = _
  rw [if_neg hle]
  rfl

theorem refresh_file_of_fresh (fs : FileSys) (render : String → String)
    (st : MarkdownState) (filename : String) (tracked : TrackedFile) (m : Nat)
    (c : String)
    (h : findVal st.tracked_files filename = some tracked)
    (hm : fs.meta tracked.path = .ok m)
    (hgt : m > tracked.last_modified)
    (hr : fs.read tracked.path = .ok c) :
    st.refresh_file fs render filename =
      .ok { st with tracked_files :=
              upsert st.tracked_files filename ⟨tracked.path, m, render c⟩ } := by
  unfold MarkdownState.refresh_file
  rw [h]
  show (fs.meta tracked.path >>= fun current_modified => _) = _
  rw [hm]
  show (if m > tracked.last_modified then _ else pure st) = _
  rw [if_pos hgt]
  show (fs.read tracked.path >>= fun content => _) = _
  rw [hr]
  rfl

theorem refresh_file_of_meta_error (fs : FileSys) (render : String → String)
    (st : MarkdownState) (filename : String) (tracked : TrackedFile) (e : IoErr)
    (h : findVal st.tracked_files filename = some tracked)
    (hm : fs.meta tracked.path = .error e) :
    st.refresh_file fs render filename = .error e := by
  unfold MarkdownState.refresh_file
  rw [h]
  show (fs.meta tracked.path >>= fun current_modified => _) = _
  rw [hm]
  rfl

theorem refresh_file_of_read_error (fs : FileSys) (render : String → String)
    (st : MarkdownState) (filename : String) (tracked : TrackedFile) (m : Nat)
    (e : IoErr)
    (h : findVal st.tracked_files filename = some tracked)
    (hm : fs.meta tracked.path = .ok m)
    (hgt : m > tracked.last_modified)
    (hr : fs.read tracked.path = .error e) :
    st.refresh_file fs render filename = .error e := by
  unfold MarkdownState.refresh_file
  rw [h]
  show (fs.meta tracked.path >>= fun current_modified => _) = _
  rw [hm]
  show (if m > tracked.last_modified then _ else pure st) = _
  rw [if_pos hgt]
  show (fs.read tracked.path >>= fun content => _) = _
  rw [hr]
  rfl

theorem refresh_file_ok_cases (fs : FileSys) (render : String → String)
    (st st' : MarkdownState) (filename : String)
    (h : st.refresh_file fs render filename = .ok st') :
    st' = st ∨
      ∃ tracked m c,
        findVal st.tracked_files filename = some tracked ∧
        fs.meta tracked.path = .ok m ∧ m > tracked.last_modified ∧
        fs.read tracked.path = .ok c ∧
        st' = { st with tracked_files :=
                  upsert st.tracked_files filename ⟨tracked.path, m, render c⟩ } := by
  cases hf : findVal st.tracked_files filename with
  | none =>
    rw [refresh_file_of_none fs render st filename hf] at h
    exact Or.inl (Except.ok.inj h).symm
  | some tracked =>
    cases hm : fs.meta tracked.path with
    | error e =>
      rw [refresh_file_of_meta_error fs render st filename tracked e hf hm] at h
      exact absurd h (by simp)
    | ok m =>
      by_cases hgt : m > tracked.last_modified
      · cases hr : fs.read tracked.path with
        | error e =>
          rw [refresh_file_of_read_error fs render st filename tracked m e hf hm hgt hr] at h
          exact absurd h (by simp)
        | ok c =>
          rw [refresh_file_of_fresh fs render st filename tracked m c hf hm hgt hr] at h
          exact Or.inr ⟨tracked, m, c, rfl, hm, hgt, hr, (Except.ok.inj h).symm⟩
      · rw [refresh_file_of_stale fs render st filename tracked m hf hm hgt] at h
        exact Or.inl (Except.ok.inj h).symm

theorem refresh_file_ok_inv (fs : FileSys) (render : String → String)
    (st st' : MarkdownState) (filename : String)
    (h : st.refresh_file fs render filename = .ok st') :
    st'.base_dir = st.base_dir ∧ st'.is_directory_mode = st.is_directory_mode ∧
      keysOf st'.tracked_files = keysOf st.tracked_files := by
  rcases refresh_file_ok_cases fs render st st' filename h with rfl | ⟨t, m, c, hf, _, _, _, rfl⟩
  · exact ⟨rfl, rfl, rfl⟩
  · refine ⟨rfl, rfl, ?_⟩
    exact keysOf_upsert_of_contains _ _ _ (by simp [containsKey, hf])

theorem add_tracked_file_of_tracked (fs : FileSys) (render : String → String)
    (st : MarkdownState) (file_path : String)
    (h : containsKey st.tracked_files (stripPrefixKey st.base_dir file_path) = true) :
    st.add_tracked_file fs render file_path = .ok st := by
  unfold MarkdownState.add_tracked_file
  simp only [h, if_pos]
  rfl

theorem add_tracked_file_of_new (fs : FileSys) (render : String → String)
    (st : MarkdownState) (file_path : String) (m : Nat) (c : String)
    (h : containsKey st.tracked_files (stripPrefixKey st.base_dir file_path) = false)
    (hm : fs.meta file_path = .ok m)
    (hr : fs.read file_path = .ok c) :
    st.add_tracked_file fs render file_path =
      .ok { st with tracked_files := upsert st.tracked_files (stripPrefixKey st.base_dir file_path) ⟨file_path, m, render c⟩ } := by
  unfold MarkdownState.add_tracked_file
  simp only [h]
  rw [if_neg (by simp)]
  show (fs.meta file_path >>= fun last_modified => _) = _
  rw [hm]
  show (fs.read file_path >>= fun content => _) = _
  rw [hr]
  rfl

theorem add_tracked_file_of_meta_error (fs : FileSys) (render : String → String)
    (st : MarkdownState) (file_path : String) (e : IoErr)
    (h : containsKey st.tracked_files (stripPrefixKey st.base_dir file_path) = false)
    (hm : fs.meta file_path = .error e) :
    st.add_tracked_file fs render file_path = .error e := by
  unfold MarkdownState.add_tracked_file
  simp only [h]
  rw [if_neg (by simp)]
  show (fs.meta file_path >>= fun last_modified => _) = _
  rw [hm]
  rfl

theorem add_tracked_file_of_read_error (fs : FileSys) (render : String → String)
    (st : MarkdownState) (file_path : String) (m : Nat) (e : IoErr)
    (h : containsKey st.tracked_files (stripPrefixKey st.base_dir file_path) = false)
    (hm : fs.meta file_path = .ok m)
    (hr : fs.read file_path = .error e) :
    st.add_tracked_file fs render file_path = .error e := by
  unfold MarkdownState.add_tracked_file
  simp only [h]
  rw [if_neg (by simp)]
  show (fs.meta file_path >>= fun last_modified => _) = _
  rw [hm]
  show (fs.read file_path >>= fun content => _) = _
  rw [hr]
  rfl

theorem add_tracked_file_ok_cases (fs : FileSys) (render : String → String)
    (st st' : MarkdownState) (file_path : String)
    (h : st.add_tracked_file fs render file_path = .ok st') :
    (containsKey st.tracked_files (stripPrefixKey st.base_dir file_path) = true ∧
        st' = st) ∨
      (containsKey st.tracked_files (stripPrefixKey st.base_dir file_path) = false ∧
        ∃ m c, fs.meta file_path = .ok m ∧ fs.read file_path = .ok c ∧
          st' = { st with tracked_files := upsert st.tracked_files (stripPrefixKey st.base_dir file_path) ⟨file_path, m, render c⟩ }) := by
  by_cases hc : containsKey st.tracked_files (stripPrefixKey st.base_dir file_path) = true
  · rw [add_tracked_file_of_tracked fs render st file_path hc] at h
    exact Or.inl ⟨hc, (Except.ok.inj h).symm⟩
  · replace hc : containsKey st.tracked_files (stripPrefixKey st.base_dir file_path) = false := by
      simpa using hc
    refine Or.inr ⟨hc, ?_⟩
    cases hm : fs.meta file_path with
    | error e =>
      rw [add_tracked_file_of_meta_error fs render st file_path e hc hm] at h
      exact absurd h (by simp)
    | ok m =>
      cases hr : fs.read file_path with
      | error e =>
        rw [add_tracked_file_of_read_error fs render st file_path m e hc hm hr] at h
        exact absurd h (by simp)
      | ok c =>
        rw [add_tracked_file_of_new fs render st file_path m c hc hm hr] at h
        exact ⟨m, c, rfl, rfl, (Except.ok.inj h).symm⟩

theorem add_tracked_file_ok_inv (fs : FileSys) (render : String → String)
    (st st' : MarkdownState) (file_path : String)
    (h : st.add_tracked_file fs render file_path = .ok st') :
    st'.base_dir = st.base_dir ∧ st'.is_directory_mode = st.is_directory_mode ∧
      ∀ k ∈ keysOf st.tracked_files, k ∈ keysOf st'.tracked_files := by
  rcases add_tracked_file_ok_cases fs render st st' file_path h with ⟨_, rfl⟩ | ⟨hc, m, c, _, _, rfl⟩
  · exact ⟨rfl, rfl, fun k hk => hk⟩
  · refine ⟨rfl, rfl, fun k hk => ?_⟩
    exact (mem_keysOf_upsert _ _ _ _).mpr (Or.inl hk)

theorem hmfc_of_not_md (fs : FileSys) (render : String → String) (path : String)
    (st : MarkdownState) (h : is_markdown_file path = false) :
    handle_markdown_file_change fs render path st = (st, []) := by
  unfold handle_markdown_file_change
  rw [if_pos]
  simp [h]

theorem hmfc_of_tracked (fs : FileSys) (render : String → String) (path : String)
    (st : MarkdownState)
    (hmd : is_markdown_file path = true)
    (htr : containsKey st.tracked_files (stripPrefixKey st.base_dir (canonicalOr fs path)) = true) :
    handle_markdown_file_change fs render path st =
      match st.refresh_file fs render (stripPrefixKey st.base_dir (canonicalOr fs path)) with
      | .ok st' => (st', [ServerMessage.Reload])
      | .error _ => (st, []) := by
  unfold handle_markdown_file_change
  rw [if_neg (by simp [hmd])]
  show (if containsKey st.tracked_files (stripPrefixKey st.base_dir (canonicalOr fs path)) = true then _ else _) = _
  rw [if_pos htr]

theorem hmfc_of_untracked_fixed (fs : FileSys) (render : String → String)
    (path : String) (st : MarkdownState)
    (hmd : is_markdown_file path = true)
    (htr : containsKey st.tracked_files (stripPrefixKey st.base_dir (canonicalOr fs path)) = false)
    (hdir : st.is_directory_mode = false) :
    handle_markdown_file_change fs render path st = (st, []) := by
  unfold handle_markdown_file_change
  rw [if_neg (by simp [hmd])]
  show (if containsKey st.tracked_files (stripPrefixKey st.base_dir (canonicalOr fs path)) = true then _ else _) = _
  rw [if_neg (by simp [htr])]
  show (if st.is_directory_mode = true then _ else _) = _
  rw [if_neg (by simp [hdir])]

theorem hmfc_of_untracked_dyn (fs : FileSys) (render : String → String)
    (path : String) (st : MarkdownState)
    (hmd : is_markdown_file path = true)
    (htr : containsKey st.tracked_files (stripPrefixKey st.base_dir (canonicalOr fs path)) = false)
    (hdir : st.is_directory_mode = true) :
    handle_markdown_file_change fs render path st =
      match st.add_tracked_file fs render (canonicalOr fs path) with
      | .ok st' => (st', [ServerMessage.Reload])
      | .error _ => (st, []) := by
  unfold handle_markdown_file_change
  rw [if_neg (by simp [hmd])]
  show (if containsKey st.tracked_files (stripPrefixKey st.base_dir (canonicalOr fs path)) = true then _ else _) = _
  rw [if_neg (by simp [htr])]
  show (if st.is_directory_mode = true then _ else _) = _
  rw [if_pos hdir]

theorem hmfc_cases (fs : FileSys) (render : String → String) (path : String)
    (st : MarkdownState) :
    handle_markdown_file_change fs render path st = (st, []) ∨
      (∃ st', st.refresh_file fs render (stripPrefixKey st.base_dir (canonicalOr fs path)) = .ok st' ∧
        handle_markdown_file_change fs render path st = (st', [ServerMessage.Reload])) ∨
      (∃ st', st.add_tracked_file fs render (canonicalOr fs path) = .ok st' ∧
        st.is_directory_mode = true ∧
        handle_markdown_file_change fs render path st = (st', [ServerMessage.Reload])) := by
  cases hmd : is_markdown_file path with
  | false => exact Or.inl (hmfc_of_not_md fs render path st hmd)
  | true =>
    cases htr : containsKey st.tracked_files (stripPrefixKey st.base_dir (canonicalOr fs path)) with
    | true =>
      have heq := hmfc_of_tracked fs render path st hmd htr
      cases hres : st.refresh_file fs render (stripPrefixKey st.base_dir (canonicalOr fs path)) with
      | ok st' =>
        rw [hres] at heq
        exact Or.inr (Or.inl ⟨st', rfl, heq⟩)
      | error e =>
        rw [hres] at heq
        exact Or.inl heq
    | false =>
      cases hdir : st.is_directory_mode with
      | false => exact Or.inl (hmfc_of_untracked_fixed fs render path st hmd htr hdir)
      | true =>
        have heq := hmfc_of_untracked_dyn fs render path st hmd htr hdir
        cases hres : st.add_tracked_file fs render (canonicalOr fs path) with
        | ok st' =>
          rw [hres] at heq
          exact Or.inr (Or.inr ⟨st', rfl, rfl, heq⟩)
        | error e =>
          rw [hres] at heq
          exact Or.inl heq

theorem hmfc_inv (fs : FileSys) (render : String → String) (path : String)
    (st : MarkdownState) :
    (handle_markdown_file_change fs render path st).1.base_dir = st.base_dir ∧
    (handle_markdown_file_change fs render path st).1.is_directory_mode = st.is_directory_mode ∧
    (∀ k ∈ keysOf st.tracked_files,
      k ∈ keysOf (handle_markdown_file_change fs render path st).1.tracked_files) ∧
    (st.is_directory_mode = false →
      keysOf (handle_markdown_file_change fs render path st).1.tracked_files =
        keysOf st.tracked_files) := by
  rcases hmfc_cases fs render path st with heq | ⟨st', hok, heq⟩ | ⟨st', hok, hdir, heq⟩
  · rw [heq]
    exact ⟨rfl, rfl, fun k hk => hk, fun _ => rfl⟩
  · rw [heq]
    obtain ⟨h1, h2, h3⟩ := refresh_file_ok_inv fs render st st' _ hok
    exact ⟨h1, h2, fun k hk => h3 ▸ hk, fun _ => h3⟩
  · rw [heq]
    obtain ⟨h1, h2, h3⟩ := add_tracked_file_ok_inv fs render st st' _ hok
    refine ⟨h1, h2, h3, fun hfix => ?_⟩
    rw [hdir] at hfix
    exact absurd hfix (by simp)

/-! ### Watch-pump equations and fold lemmas -/

theorem hfe_rename_both_nil (fs : FileSys) (render : String → String)
    (st : MarkdownState) :
    handle_file_event fs render ⟨EventKind.ModifyName RenameMode.Both, []⟩ st = (st, []) := rfl

theorem hfe_rename_both_one (fs : FileSys) (render : String → String)
    (p : String) (st : MarkdownState) :
    handle_file_event fs render ⟨EventKind.ModifyName RenameMode.Both, [p]⟩ st = (st, []) := rfl

theorem hfe_rename_both_two (fs : FileSys) (render : String → String)
    (p q : String) (st : MarkdownState) :
    handle_file_event fs render ⟨EventKind.ModifyName RenameMode.Both, [p, q]⟩ st =
      handle_markdown_file_change fs render q st := rfl

theorem hfe_rename_both_many (fs : FileSys) (render : String → String)
    (p q r : String) (rest : List String) (st : MarkdownState) :
    handle_file_event fs render ⟨EventKind.ModifyName RenameMode.Both, p :: q :: r :: rest⟩ st =
      (st, []) := rfl

theorem hfe_rename_from (fs : FileSys) (render : String → String)
    (paths : List String) (st : MarkdownState) :
    handle_file_event fs render ⟨EventKind.ModifyName RenameMode.From, paths⟩ st = (st, []) := rfl

theorem hfe_rename_to_nil (fs : FileSys) (render : String → String)
    (st : MarkdownState) :
    handle_file_event fs render ⟨EventKind.ModifyName RenameMode.To, []⟩ st = (st, []) := rfl

theorem hfe_rename_to_cons (fs : FileSys) (render : String → String)
    (p : String) (rest : List String) (st : MarkdownState) :
    handle_file_event fs render ⟨EventKind.ModifyName RenameMode.To, p :: rest⟩ st =
      handle_markdown_file_change fs render p st := rfl

theorem hfe_rename_any_nil (fs : FileSys) (render : String → String)
    (st : MarkdownState) :
    handle_file_event fs render ⟨EventKind.ModifyName RenameMode.Any, []⟩ st = (st, []) := rfl

theorem hfe_rename_any_cons (fs : FileSys) (render : String → String)
    (p : String) (rest : List String) (st : MarkdownState) :
    handle_file_event fs render ⟨EventKind.ModifyName RenameMode.Any, p :: rest⟩ st =
      (if fs.pathExists p then handle_markdown_file_change fs render p st else (st, [])) := rfl

theorem hfe_rename_other (fs : FileSys) (render : String → String)
    (paths : List String) (st : MarkdownState) :
    handle_file_event fs render ⟨EventKind.ModifyName RenameMode.Other, paths⟩ st = (st, []) := rfl

theorem hfe_create (fs : FileSys) (render : String → String)
    (paths : List String) (st : MarkdownState) :
    handle_file_event fs render ⟨EventKind.Create, paths⟩ st =
      paths.foldl (processEventPath fs render EventKind.Create) (st, []) := rfl

theorem hfe_modify_data (fs : FileSys) (render : String → String)
    (paths : List String) (st : MarkdownState) :
    handle_file_event fs render ⟨EventKind.ModifyData, paths⟩ st =
      paths.foldl (processEventPath fs render EventKind.ModifyData) (st, []) := rfl

theorem hfe_modify_other (fs : FileSys) (render : String → String)
    (paths : List String) (st : MarkdownState) :
    handle_file_event fs render ⟨EventKind.ModifyOther, paths⟩ st =
      paths.foldl (processEventPath fs render EventKind.ModifyOther) (st, []) := rfl

theorem hfe_remove (fs : FileSys) (render : String → String)
    (paths : List String) (st : MarkdownState) :
    handle_file_event fs render ⟨EventKind.Remove, paths⟩ st =
      paths.foldl (processEventPath fs render EventKind.Remove) (st, []) := rfl

theorem hfe_other (fs : FileSys) (render : String → String)
    (paths : List String) (st : MarkdownState) :
    handle_file_event fs render ⟨EventKind.Other, paths⟩ st =
      paths.foldl (processEventPath fs render EventKind.Other) (st, []) := rfl

theorem processEventPath_fst_remove (fs : FileSys) (render : String → String)
    (acc : MarkdownState × List ServerMessage) (path : String) :
    (processEventPath fs render EventKind.Remove acc path).1 = acc.1 := by
  unfold processEventPath
  split_ifs <;> rfl

theorem foldl_processEventPath_fst_remove (fs : FileSys) (render : String → String)
    (paths : List String) :
    ∀ acc : MarkdownState × List ServerMessage,
      (paths.foldl (processEventPath fs render EventKind.Remove) acc).1 = acc.1 := by
  induction paths with
  | nil => intro acc; rfl
  | cons p rest ih =>
    intro acc
    rw [List.foldl_cons, ih (processEventPath fs render EventKind.Remove acc p),
      processEventPath_fst_remove]

theorem processEventPath_inv (fs : FileSys) (render : String → String)
    (kind : EventKind) (acc : MarkdownState × List ServerMessage) (path : String) :
    (processEventPath fs render kind acc path).1.base_dir = acc.1.base_dir ∧
    (processEventPath fs render kind acc path).1.is_directory_mode = acc.1.is_directory_mode ∧
    (∀ k ∈ keysOf acc.1.tracked_files,
      k ∈ keysOf (processEventPath fs render kind acc path).1.tracked_files) ∧
    (acc.1.is_directory_mode = false →
      keysOf (processEventPath fs render kind acc path).1.tracked_files =
        keysOf acc.1.tracked_files) := by
  unfold processEventPath
  split_ifs with h1 h2
  · cases kind with
    | Create => simpa using hmfc_inv fs render path acc.1
    | ModifyData => simpa using hmfc_inv fs render path acc.1
    | ModifyName mode => exact ⟨rfl, rfl, fun k hk => hk, fun _ => rfl⟩
    | ModifyOther => exact ⟨rfl, rfl, fun k hk => hk, fun _ => rfl⟩
    | Remove => exact ⟨rfl, rfl, fun k hk => hk, fun _ => rfl⟩
    | Other => exact ⟨rfl, rfl, fun k hk => hk, fun _ => rfl⟩
  · cases kind <;> exact ⟨rfl, rfl, fun k hk => hk, fun _ => rfl⟩
  · exact ⟨rfl, rfl, fun k hk => hk, fun _ => rfl⟩

theorem foldl_processEventPath_inv (fs : FileSys) (render : String → String)
    (kind : EventKind) (paths : List String) :
    ∀ acc : MarkdownState × List ServerMessage,
      (paths.foldl (processEventPath fs render kind) acc).1.base_dir = acc.1.base_dir ∧
      (paths.foldl (processEventPath fs render kind) acc).1.is_directory_mode =
        acc.1.is_directory_mode ∧
      (∀ k ∈ keysOf acc.1.tracked_files,
        k ∈ keysOf (paths.foldl (processEventPath fs render kind) acc).1.tracked_files) ∧
      (acc.1.is_directory_mode = false →
        keysOf (paths.foldl (processEventPath fs render kind) acc).1.tracked_files =
          keysOf acc.1.tracked_files) := by
  induction paths with
  | nil => intro acc; exact ⟨rfl, rfl, fun k hk => hk, fun _ => rfl⟩
  | cons p rest ih =>
    intro acc
    obtain ⟨b1, d1, s1, f1⟩ := processEventPath_inv fs render kind acc p
    obtain ⟨b2, d2, s2, f2⟩ := ih (processEventPath fs render kind acc p)
    rw [List.foldl_cons]
    refine ⟨b2.trans b1, d2.trans d1, fun k hk => s2 k (s1 k hk), fun hfix => ?_⟩
    rw [f2 (by rw [d1, hfix]), f1 hfix]

theorem handle_file_event_inv (fs : FileSys) (render : String → String)
    (event : Event) (st : MarkdownState) :
    (handle_file_event fs render event st).1.base_dir = st.base_dir ∧
    (handle_file_event fs render event st).1.is_directory_mode = st.is_directory_mode ∧
    (∀ k ∈ keysOf st.tracked_files,
      k ∈ keysOf (handle_file_event fs render event st).1.tracked_files) ∧
    (st.is_directory_mode = false →
      keysOf (handle_file_event fs render event st).1.tracked_files =
        keysOf st.tracked_files) := by
  obtain ⟨kind, paths⟩ := event
  cases kind with
  | ModifyName mode =>
    cases mode with
    | Both =>
      rcases paths with _ | ⟨p, _ | ⟨q, _ | ⟨r, rest⟩⟩⟩
      · rw [hfe_rename_both_nil]
        exact ⟨rfl, rfl, fun k hk => hk, fun _ => rfl⟩
      · rw [hfe_rename_both_one]
        exact ⟨rfl, rfl, fun k hk => hk, fun _ => rfl⟩
      · rw [hfe_rename_both_two]
        exact hmfc_inv fs render q st
      · rw [hfe_rename_both_many]
        exact ⟨rfl, rfl, fun k hk => hk, fun _ => rfl⟩
    | From =>
      rw [hfe_rename_from]
      exact ⟨rfl, rfl, fun k hk => hk, fun _ => rfl⟩
    | To =>
      rcases paths with _ | ⟨p, rest⟩
      · rw [hfe_rename_to_nil]
        exact ⟨rfl, rfl, fun k hk => hk, fun _ => rfl⟩
      · rw [hfe_rename_to_cons]
        exact hmfc_inv fs render p st
    | Any =>
      rcases paths with _ | ⟨p, rest⟩
      · rw [hfe_rename_any_nil]
        exact ⟨rfl, rfl, fun k hk => hk, fun _ => rfl⟩
      · rw [hfe_rename_any_cons]
        by_cases hex : fs.pathExists p = true
        · rw [if_pos hex]
          exact hmfc_inv fs render p st
        · rw [if_neg hex]
          exact ⟨rfl, rfl, fun k hk => hk, fun _ => rfl⟩
    | Other =>
      rw [hfe_rename_other]
      exact ⟨rfl, rfl, fun k hk => hk, fun _ => rfl⟩
  | Create => exact hfe_create fs render paths st ▸ foldl_processEventPath_inv fs render EventKind.Create paths (st, [])
  | ModifyData => exact hfe_modify_data fs render paths st ▸ foldl_processEventPath_inv fs render EventKind.ModifyData paths (st, [])
  | ModifyOther => exact hfe_modify_other fs render paths st ▸ foldl_processEventPath_inv fs render EventKind.ModifyOther paths (st, [])
  | Remove => exact hfe_remove fs render paths st ▸ foldl_processEventPath_inv fs render EventKind.Remove paths (st, [])
  | Other => exact hfe_other fs render paths st ▸ foldl_processEventPath_inv fs render EventKind.Other paths (st, [])

/-! ### Claim theorems -/

/-- C1: processing any filesystem event never removes a key from the
tracked map — the key set after is a superset of the key set before; in
fixed mode it is exactly equal; and a Remove event never mutates the
tracked state at all. -/
theorem C1_events_never_remove_keys (fs : FileSys) (render : String → String)
    (event : Event) (st : MarkdownState) :
    (∀ k ∈ keysOf st.tracked_files,
      k ∈ keysOf (handle_file_event fs render event st).1.tracked_files) ∧
    (st.is_directory_mode = false →
      keysOf (handle_file_event fs render event st).1.tracked_files =
        keysOf st.tracked_files) ∧
    (event.kind = EventKind.Remove → (handle_file_event fs render event st).1 = st) := by
  obtain ⟨_, _, hsup, hfix⟩ := handle_file_event_inv fs render event st
  refine ⟨hsup, hfix, fun hrem => ?_⟩
  obtain ⟨kind, paths⟩ := event
  replace hrem : kind = EventKind.Remove := hrem
  subst hrem
  rw [hfe_remove]
  exact foldl_processEventPath_fst_remove fs render paths (st, [])

/-- Witness for C1 at a concrete Remove event on a one-document store. -/
theorem C1_events_never_remove_keys_witness :
    (handle_file_event (constFS (.ok 7) (.ok "x")) id ⟨EventKind.Remove, ["/r/a.md"]⟩
        (sampleState true [("a.md", sampleEntry 5)])).1 =
      sampleState true [("a.md", sampleEntry 5)] :=
  (C1_events_never_remove_keys (constFS (.ok 7) (.ok "x")) id
    ⟨EventKind.Remove, ["/r/a.md"]⟩ (sampleState true [("a.md", sampleEntry 5)])).2.2 rfl

/-- C5: rename events are disambiguated exactly as specified — a
two-path rename is classified by its new (second) path; a from-only half
is ignored; a to-only half is classified by its destination path; an
ambiguous single-sided rename is processed as a change when the path
exists on disk and ignored when absent. -/
theorem C5_rename_disambiguation (fs : FileSys) (render : String → String)
    (st : MarkdownState) :
    (∀ old_path new_path,
      handle_file_event fs render ⟨EventKind.ModifyName RenameMode.Both, [old_path, new_path]⟩ st =
        handle_markdown_file_change fs render new_path st) ∧
    (∀ paths,
      handle_file_event fs render ⟨EventKind.ModifyName RenameMode.From, paths⟩ st = (st, [])) ∧
    (∀ p rest,
      handle_file_event fs render ⟨EventKind.ModifyName RenameMode.To, p :: rest⟩ st =
        handle_markdown_file_change fs render p st) ∧
    (∀ p rest, fs.pathExists p = true →
      handle_file_event fs render ⟨EventKind.ModifyName RenameMode.Any, p :: rest⟩ st =
        handle_markdown_file_change fs render p st) ∧
    (∀ p rest, fs.pathExists p = false →
      handle_file_event fs render ⟨EventKind.ModifyName RenameMode.Any, p :: rest⟩ st =
        (st, [])) := by
  refine ⟨fun o n => hfe_rename_both_two fs render o n st,
    fun paths => hfe_rename_from fs render paths st,
    fun p rest => hfe_rename_to_cons fs render p rest st,
    fun p rest hex => ?_, fun p rest hex => ?_⟩
  · rw [hfe_rename_any_cons, if_pos hex]
  · rw [hfe_rename_any_cons, if_neg (by simp [hex])]

/-- Witness for C5: the two `Any` branches at a concrete filesystem where
the path exists resp. is absent. -/
theorem C5_rename_disambiguation_witness :
    handle_file_event (constFS (.ok 7) (.ok "x")) id
        ⟨EventKind.ModifyName RenameMode.Any, ["/r/a.md"]⟩ (sampleState true []) =
      handle_markdown_file_change (constFS (.ok 7) (.ok "x")) id "/r/a.md"
        (sampleState true []) ∧
    handle_file_event (constFS (.error ⟨1⟩) (.ok "x")) id
        ⟨EventKind.ModifyName RenameMode.Any, ["/r/a.md"]⟩ (sampleState true []) =
      (sampleState true [], []) :=
  ⟨(C5_rename_disambiguation (constFS (.ok 7) (.ok "x")) id
      (sampleState true [])).2.2.2.1 "/r/a.md" [] (by decide),
   (C5_rename_disambiguation (constFS (.error ⟨1⟩) (.ok "x")) id
      (sampleState true [])).2.2.2.2 "/r/a.md" [] (by decide)⟩

/-- C7: classification as a trackable document depends only on a
case-insensitive match of the extension against `{md, markdown}` — a
name is trackable exactly when it has an extension whose ASCII
lower-casing is `md` or `markdown`. -/
theorem C7_extension_allowlist (p : String) :
    is_markdown_file p = true ↔
      ∃ e, extensionOf p = some e ∧ (lowerStr e = "md" ∨ lowerStr e = "markdown") := by
  unfold is_markdown_file
  cases hx : extensionOf p with
  | none => simp
  | some e =>
    simp only [Option.some.injEq]
    constructor
    · intro h
      have h' : eqIgnoreAsciiCase e "md" = true ∨ eqIgnoreAsciiCase e "markdown" = true := by
        simpa using h
      rcases h' with h' | h'
      · exact ⟨e, rfl, Or.inl (by simpa [eqIgnoreAsciiCase] using h')⟩
      · exact ⟨e, rfl, Or.inr (by simpa [eqIgnoreAsciiCase] using h')⟩
    · rintro ⟨e', heq, hl | hl⟩
      · cases heq
        have h' : eqIgnoreAsciiCase e "md" = true := by
          simp [eqIgnoreAsciiCase, hl]
          rfl
        simp [h']
      · cases heq
        have h' : eqIgnoreAsciiCase e "markdown" = true := by
          simp [eqIgnoreAsciiCase, hl]
          rfl
        simp [h']

/-- Witness for C7: a mixed-case variant is trackable; also checks a
non-listed extension and an extensionless name are not. -/
theorem C7_extension_allowlist_witness :
    is_markdown_file "dir/note.MarkDown" = true ∧
    is_markdown_file "dir/note.txt" = false ∧ is_markdown_file "README" = false :=
  ⟨(C7_extension_allowlist "dir/note.MarkDown").mpr ⟨"MarkDown", by decide, Or.inr (by decide)⟩,
   by decide, by decide⟩

theorem mem_get_sorted_filenames (st : MarkdownState) (k : String) :
    k ∈ st.get_sorted_filenames ↔ k ∈ keysOf st.tracked_files := by
  unfold MarkdownState.get_sorted_filenames
  exact List.mem_insertionSort (· ≤ ·)

/-- C10: the HTTP document route matches the markdown suffix
case-sensitively, unlike tracking — any request path not ending in the
exact lower-case `.md`/`.markdown` and not an image file gets 404 with
the store untouched, so a key with an upper-case extension such as
`README.MD` is tracked and listed but never servable through
`serve_file`. -/
theorem C10_document_route_case_sensitive (fs : FileSys) (render : String → String)
    (filepath : String) (st : MarkdownState)
    (h1 : strEndsWith filepath ".md" = false)
    (h2 : strEndsWith filepath ".markdown" = false)
    (h3 : is_image_file filepath = false) :
    serve_file fs render filepath st = ((HttpStatus.notFound, "File not found"), st) ∧
    is_markdown_file "README.MD" = true ∧
    (∀ st₂ : MarkdownState, containsKey st₂.tracked_files "README.MD" = true →
      "README.MD" ∈ st₂.get_sorted_filenames) ∧
    (∀ st₂ : MarkdownState,
      serve_file fs render "README.MD" st₂ =
        ((HttpStatus.notFound, "File not found"), st₂)) := by
  refine ⟨?_, by decide,
    fun st₂ h => (mem_get_sorted_filenames st₂ _).mpr ((containsKey_iff_mem _ _).mp h),
    fun st₂ => ?_⟩
  · unfold serve_file
    rw [if_neg (by simp [h1, h2]), if_neg (by simp [h3])]
  · unfold serve_file
    rw [if_neg (by decide), if_neg (by decide)]

/-- Witness for C10 at a concrete non-document, non-image request path. -/
theorem C10_document_route_case_sensitive_witness :
    serve_file (constFS (.ok 7) (.ok "x")) id "style.css" (sampleState true []) =
      ((HttpStatus.notFound, "File not found"), sampleState true []) :=
  (C10_document_route_case_sensitive (constFS (.ok 7) (.ok "x")) id "style.css"
    (sampleState true []) (by decide) (by decide) (by decide)).1

/-- C6: when a refresh fails with an I/O error after startup, the tracked
entry is left completely unchanged, no reload message is published, and
the watch pump's handler returns normally with the untouched state. -/
theorem C6_refresh_error_recoverable (fs : FileSys) (render : String → String)
    (path : String) (st : MarkdownState) (e : IoErr)
    (hmd : is_markdown_file path = true)
    (htr : containsKey st.tracked_files (stripPrefixKey st.base_dir (canonicalOr fs path)) = true)
    (herr : st.refresh_file fs render (stripPrefixKey st.base_dir (canonicalOr fs path)) = .error e) :
    handle_markdown_file_change fs render path st = (st, []) ∧
    handle_file_event fs render ⟨EventKind.ModifyData, [path]⟩ st = (st, []) := by
  have heq := hmfc_of_tracked fs render path st hmd htr
  rw [herr] at heq
  refine ⟨heq, ?_⟩
  rw [hfe_modify_data]
  show processEventPath fs render EventKind.ModifyData (st, []) path = (st, [])
  unfold processEventPath
  rw [if_pos (by simp [hmd])]
  show ((handle_markdown_file_change fs render path st).1,
    ([] : List ServerMessage) ++ (handle_markdown_file_change fs render path st).2) = (st, [])
  rw [heq]
  rfl

/-- Witness for C6: a store whose only document's stat fails. -/
theorem C6_refresh_error_recoverable_witness :
    handle_markdown_file_change (constFS (.error ⟨1⟩) (.ok "x")) id "/r/a.md"
        (sampleState true [("a.md", sampleEntry 5)]) =
      (sampleState true [("a.md", sampleEntry 5)], []) :=
  (C6_refresh_error_recoverable (constFS (.error ⟨1⟩) (.ok "x")) id "/r/a.md"
    (sampleState true [("a.md", sampleEntry 5)]) ⟨1⟩ (by decide) (by decide) rfl).1

/-- C4: whenever handling a changed markdown path publishes a `Reload`,
the state paired with that broadcast is exactly the post-mutation store
of the refresh or admission that triggered it — the mutation and the
publish form one atomic transition, so a subscriber reacting to the
reload observes the post-mutation artifact. -/
theorem C4_mutation_before_broadcast (fs : FileSys) (render : String → String)
    (path : String) (st st' : MarkdownState) (msgs : List ServerMessage)
    (h : handle_markdown_file_change fs render path st = (st', msgs))
    (hm : ServerMessage.Reload ∈ msgs) :
    msgs = [ServerMessage.Reload] ∧
      (st.refresh_file fs render (stripPrefixKey st.base_dir (canonicalOr fs path)) = .ok st' ∨
        st.add_tracked_file fs render (canonicalOr fs path) = .ok st') := by
  rcases hmfc_cases fs render path st with heq | ⟨s, hok, heq⟩ | ⟨s, hok, _, heq⟩
  · rw [heq] at h
    obtain ⟨rfl, rfl⟩ := Prod.mk.inj h.symm
    simp at hm
  · rw [heq] at h
    obtain ⟨rfl, rfl⟩ := Prod.mk.inj h.symm
    exact ⟨rfl, Or.inl hok⟩
  · rw [heq] at h
    obtain ⟨rfl, rfl⟩ := Prod.mk.inj h.symm
    exact ⟨rfl, Or.inr hok⟩

/-- Witness for C4: a dynamic-mode admission of a new file publishes one
reload paired with exactly the admitted store. -/
theorem C4_mutation_before_broadcast_witness :
    ([ServerMessage.Reload] = [ServerMessage.Reload] ∧
      ((sampleState true []).refresh_file (constFS (.ok 7) (.ok "x")) id
          (stripPrefixKey (sampleState true []).base_dir
            (canonicalOr (constFS (.ok 7) (.ok "x")) "/r/a.md")) =
        .ok (sampleState true [("a.md", ⟨"/r/a.md", 7, "x"⟩)]) ∨
       (sampleState true []).add_tracked_file (constFS (.ok 7) (.ok "x")) id
          (canonicalOr (constFS (.ok 7) (.ok "x")) "/r/a.md") =
        .ok (sampleState true [("a.md", ⟨"/r/a.md", 7, "x"⟩)]))) :=
  C4_mutation_before_broadcast (constFS (.ok 7) (.ok "x")) id "/r/a.md"
    (sampleState true []) (sampleState true [("a.md", ⟨"/r/a.md", 7, "x"⟩)])
    [ServerMessage.Reload] rfl (by simp)

/-- C2: refresh is idempotent — with the on-disk timestamp not strictly
newer than the stored one, refresh succeeds and returns the state
unchanged (artifact and timestamp kept); and any successful refresh is a
fixed point: refreshing the result again succeeds without changing it. -/
theorem C2_refresh_idempotent (fs : FileSys) (render : String → String)
    (st : MarkdownState) (filename : String) :
    (∀ tracked m, findVal st.tracked_files filename = some tracked →
      fs.meta tracked.path = .ok m → m ≤ tracked.last_modified →
      st.refresh_file fs render filename = .ok st) ∧
    (∀ st', st.refresh_file fs render filename = .ok st' →
      st'.refresh_file fs render filename = .ok st') := by
  constructor
  · intro tracked m hf hm hle
    exact refresh_file_of_stale fs render st filename tracked m hf hm (Nat.not_lt.mpr hle)
  · intro st' h
    rcases refresh_file_ok_cases fs render st st' filename h with rfl | ⟨t, m, c, hf, hm, _, hr, rfl⟩
    · exact h
    · have hf' : findVal (upsert st.tracked_files filename ⟨t.path, m, render c⟩) filename =
          some ⟨t.path, m, render c⟩ := findVal_upsert_self _ _ _
      exact refresh_file_of_stale fs render _ filename ⟨t.path, m, render c⟩ m hf' hm (by simp)

/-- Witness for C2: an up-to-date document refreshes to an unchanged
store, twice. -/
theorem C2_refresh_idempotent_witness :
    (sampleState true [("a.md", sampleEntry 5)]).refresh_file (constFS (.ok 5) (.ok "x"))
        id "a.md" =
      .ok (sampleState true [("a.md", sampleEntry 5)]) :=
  (C2_refresh_idempotent (constFS (.ok 5) (.ok "x")) id
    (sampleState true [("a.md", sampleEntry 5)]) "a.md").1 (sampleEntry 5) 5
    (by decide) rfl (by decide)

theorem initInsert_of_ok (fs : FileSys) (render : String → String) (base : String)
    (m : TrackedMap) (p : String) (mt : Nat) (c : String)
    (hm : fs.meta p = .ok mt) (hr : fs.read p = .ok c) :
    initInsert fs render base m p =
      .ok (upsert m (stripPrefixKey base (canonicalOr fs p)) ⟨canonicalOr fs p, mt, render c⟩) := by
  unfold initInsert
  show (fs.meta p >>= fun last_modified => _) = _
  rw [hm]
  show (fs.read p >>= fun content => _) = _
  rw [hr]
  rfl

theorem initInsert_meta_error (fs : FileSys) (render : String → String) (base : String)
    (m : TrackedMap) (p : String) (e : IoErr) (hm : fs.meta p = .error e) :
    initInsert fs render base m p = .error e := by
  unfold initInsert
  show (fs.meta p >>= fun last_modified => _) = _
  rw [hm]
  rfl

theorem initInsert_read_error (fs : FileSys) (render : String → String) (base : String)
    (m : TrackedMap) (p : String) (mt : Nat) (e : IoErr)
    (hm : fs.meta p = .ok mt) (hr : fs.read p = .error e) :
    initInsert fs render base m p = .error e := by
  unfold initInsert
  show (fs.meta p >>= fun last_modified => _) = _
  rw [hm]
  show (fs.read p >>= fun content => _) = _
  rw [hr]
  rfl

theorem initFiles_isOk_iff (fs : FileSys) (render : String → String) (base : String)
    (paths : List String) :
    ∀ m : TrackedMap, (initFiles fs render base paths m).isOk = true ↔
      ∀ p ∈ paths, (fs.meta p).isOk = true ∧ (fs.read p).isOk = true := by
  induction paths with
  | nil =>
    intro m
    constructor
    · intro _ q hq
      exact absurd hq (List.not_mem_nil q)
    · intro _
      rfl
  | cons p rest ih =>
    intro m
    show ((initInsert fs render base m p) >>= fun m' =>
      initFiles fs render base rest m').isOk = true ↔ _
    cases hm : fs.meta p with
    | error e =>
      rw [initInsert_meta_error fs render base m p e hm]
      show (Except.error e : Except IoErr TrackedMap).isOk = true ↔ _
      constructor
      · intro h
        simp [Except.isOk, Except.toBool] at h
      · intro hall
        have := (hall p (by simp)).1
        rw [hm] at this
        simp [Except.isOk, Except.toBool] at this
    | ok mt =>
      cases hr : fs.read p with
      | error e =>
        rw [initInsert_read_error fs render base m p mt e hm hr]
        show (Except.error e : Except IoErr TrackedMap).isOk = true ↔ _
        constructor
        · intro h
          simp [Except.isOk, Except.toBool] at h
        · intro hall
          have := (hall p (by simp)).2
          rw [hr] at this
          simp [Except.isOk, Except.toBool] at this
      | ok c =>
        rw [initInsert_of_ok fs render base m p mt c hm hr]
        show (initFiles fs render base rest _).isOk = true ↔ _
        rw [ih]
        constructor
        · intro hall
          intro q hq
          rcases List.mem_cons.mp hq with rfl | hq'
          · exact ⟨by rw [hm]; rfl, by rw [hr]; rfl⟩
          · exact hall q hq'
        · intro hall q hq
          exact hall q (List.mem_cons_of_mem p hq)

/-- C8: store initialization is all-or-nothing — it succeeds exactly when
every initial file is fully readable, and any unreadable initial file
makes it return the I/O error with no store constructed. -/
theorem C8_initialization_all_or_nothing (fs : FileSys) (render : String → String)
    (base_dir : String) (file_paths : List String) (dyn : Bool) :
    ((MarkdownState.new fs render base_dir file_paths dyn).isOk = true ↔
      ∀ p ∈ file_paths, (fs.meta p).isOk = true ∧ (fs.read p).isOk = true) ∧
    ((∃ p ∈ file_paths, ¬((fs.meta p).isOk = true ∧ (fs.read p).isOk = true)) →
      ∃ e, MarkdownState.new fs render base_dir file_paths dyn = .error e) := by
  have hmain : (MarkdownState.new fs render base_dir file_paths dyn).isOk = true ↔
      (initFiles fs render base_dir file_paths []).isOk = true := by
    unfold MarkdownState.new
    cases h : initFiles fs render base_dir file_paths [] with
    | ok m =>
      show ((Except.ok m : Except IoErr TrackedMap) >>= _).isOk = true ↔ _
      simp [Bind.bind, Except.bind, Except.isOk, Except.toBool, pure, Except.pure]
    | error e =>
      show ((Except.error e : Except IoErr TrackedMap) >>= _).isOk = true ↔ _
      simp [Bind.bind, Except.bind, Except.isOk, Except.toBool]
  have hiff := hmain.trans (initFiles_isOk_iff fs render base_dir file_paths [])
  refine ⟨hiff, fun ⟨p, hp, hbad⟩ => ?_⟩
  cases hres : MarkdownState.new fs render base_dir file_paths dyn with
  | ok stc =>
    exact absurd (fun q hq => hiff.mp (by rw [hres]; rfl) q hq) (fun hall => hbad (hall p hp))
  | error e => exact ⟨e, rfl⟩

/-- Witness for C8: construction over one readable and one unreadable
initial file fails. -/
theorem C8_initialization_all_or_nothing_witness :
    ∃ e, MarkdownState.new
        ⟨fun p => if p = "/r/bad.md" then .error ⟨1⟩ else .ok 5,
          fun _ => .ok "x", fun p => some p, fun _ => true⟩
        id "/r" ["/r/a.md", "/r/bad.md"] false = .error e :=
  (C8_initialization_all_or_nothing
      ⟨fun p => if p = "/r/bad.md" then .error ⟨1⟩ else .ok 5,
        fun _ => .ok "x", fun p => some p, fun _ => true⟩
      id "/r" ["/r/a.md", "/r/bad.md"] false).2
    ⟨"/r/bad.md", by simp, by decide⟩

theorem hmfc_after_add (fs : FileSys) (render : String → String) (path : String)
    (stUp : MarkdownState) (mt : Nat) (c : String)
    (hmd : is_markdown_file path = true)
    (hfv : findVal stUp.tracked_files (stripPrefixKey stUp.base_dir (canonicalOr fs path)) =
      some ⟨canonicalOr fs path, mt, render c⟩)
    (hm : fs.meta (canonicalOr fs path) = .ok mt) :
    handle_markdown_file_change fs render path stUp = (stUp, [ServerMessage.Reload]) := by
  have htr : containsKey stUp.tracked_files
      (stripPrefixKey stUp.base_dir (canonicalOr fs path)) = true := by
    unfold containsKey
    rw [hfv]
    rfl
  have heq2 := hmfc_of_tracked fs render path stUp hmd htr
  have hrf := refresh_file_of_stale fs render stUp
    (stripPrefixKey stUp.base_dir (canonicalOr fs path))
    ⟨canonicalOr fs path, mt, render c⟩ mt hfv hm (by simp)
  rw [hrf] at heq2
  exact heq2

/-- C3: admission is mode-gated and exactly-once — a create/modify for an
untracked matching file mutates nothing in fixed mode (and the key stays
out of the listed filenames); in dynamic mode it is admitted, appears
among the keys exactly once, and handling a duplicate event for the same
file leaves the store unchanged; admitting an already-tracked key is a
no-op. -/
theorem C3_admission_mode_gated (fs : FileSys) (render : String → String)
    (path : String) (st : MarkdownState)
    (hmd : is_markdown_file path = true)
    (hnew : containsKey st.tracked_files (stripPrefixKey st.base_dir (canonicalOr fs path)) = false) :
    (st.is_directory_mode = false →
      handle_markdown_file_change fs render path st = (st, []) ∧
      stripPrefixKey st.base_dir (canonicalOr fs path) ∉ st.get_sorted_filenames) ∧
    (st.is_directory_mode = true →
      ∀ mt c, fs.meta (canonicalOr fs path) = .ok mt →
        fs.read (canonicalOr fs path) = .ok c →
        stripPrefixKey st.base_dir (canonicalOr fs path) ∈
          keysOf (handle_markdown_file_change fs render path st).1.tracked_files ∧
        handle_markdown_file_change fs render path
            (handle_markdown_file_change fs render path st).1 =
          ((handle_markdown_file_change fs render path st).1, [ServerMessage.Reload]) ∧
        (keysOf (handle_markdown_file_change fs render path st).1.tracked_files).count
          (stripPrefixKey st.base_dir (canonicalOr fs path)) = 1) ∧
    (∀ st₂ : MarkdownState, ∀ q,
      containsKey st₂.tracked_files (stripPrefixKey st₂.base_dir q) = true →
      st₂.add_tracked_file fs render q = .ok st₂) := by
  refine ⟨fun hdir => ⟨hmfc_of_untracked_fixed fs render path st hmd hnew hdir, ?_⟩,
    fun hdir mt c hm hr => ?_,
    fun st₂ q h => add_tracked_file_of_tracked fs render st₂ q h⟩
  · intro hmem
    have := (containsKey_iff_mem st.tracked_files _).mpr
      ((mem_get_sorted_filenames st _).mp hmem)
    rw [this] at hnew
    exact absurd hnew (by simp)
  · have hadd := add_tracked_file_of_new fs render st (canonicalOr fs path) mt c hnew hm hr
    have heq := hmfc_of_untracked_dyn fs render path st hmd hnew hdir
    rw [hadd] at heq
    replace heq : handle_markdown_file_change fs render path st = ({ st with tracked_files := upsert st.tracked_files (stripPrefixKey st.base_dir (canonicalOr fs path)) ⟨canonicalOr fs path, mt, render c⟩ }, [ServerMessage.Reload]) := heq
    rw [heq]
    exact ⟨(mem_keysOf_upsert _ _ _ _).mpr (Or.inr rfl),
      hmfc_after_add fs render path _ mt c hmd (findVal_upsert_self _ _ _) hm,
      count_keysOf_upsert_new _ _ _ hnew⟩

/-- Witness for C3: dynamic-mode admission of a concrete new file — the
key is present exactly once and the duplicate event is a no-op. -/
theorem C3_admission_mode_gated_witness :
    "a.md" ∈ keysOf (handle_markdown_file_change (constFS (.ok 7) (.ok "x")) id "/r/a.md"
        (sampleState true [])).1.tracked_files ∧
    handle_markdown_file_change (constFS (.ok 7) (.ok "x")) id "/r/a.md"
        (handle_markdown_file_change (constFS (.ok 7) (.ok "x")) id "/r/a.md"
          (sampleState true [])).1 =
      ((handle_markdown_file_change (constFS (.ok 7) (.ok "x")) id "/r/a.md"
          (sampleState true [])).1, [ServerMessage.Reload]) ∧
    (keysOf (handle_markdown_file_change (constFS (.ok 7) (.ok "x")) id "/r/a.md"
        (sampleState true [])).1.tracked_files).count "a.md" = 1 :=
  (C3_admission_mode_gated (constFS (.ok 7) (.ok "x")) id "/r/a.md" (sampleState true [])
    (by decide) (by decide)).2.1 rfl 7 "x" rfl rfl

/-- C9: the listed filenames are exactly the tracked keys in
lexicographic order, and the root route serves the lexicographically
smallest key as the first document, reporting an error state when no keys
exist. -/
theorem C9_sorted_keys_and_first_document (fs : FileSys) (render : String → String)
    (st : MarkdownState) :
    List.Sorted (· ≤ ·) st.get_sorted_filenames ∧
    (∀ k, k ∈ st.get_sorted_filenames ↔ k ∈ keysOf st.tracked_files) ∧
    (keysOf st.tracked_files = [] →
      serve_html_root fs render st =
        ((HttpStatus.internalServerError, "No files available to serve"), st)) ∧
    (∀ hd, st.get_sorted_filenames.head? = some hd →
      (∀ k ∈ keysOf st.tracked_files, hd ≤ k) ∧
      serve_html_root fs render st =
        (render_markdown (refreshOrKeep fs render st hd) hd, refreshOrKeep fs render st hd)) := by
  have hsorted : List.Sorted (· ≤ ·) st.get_sorted_filenames :=
    List.sorted_insertionSort (· ≤ ·) (keysOf st.tracked_files)
  refine ⟨hsorted, fun k => mem_get_sorted_filenames st k, fun hempty => ?_, fun hd hhd => ?_⟩
  · have h0 : st.get_sorted_filenames = [] := by
      unfold MarkdownState.get_sorted_filenames
      rw [hempty]
      rfl
    unfold serve_html_root
    rw [h0]
    rfl
  · constructor
    · intro k hk
      have hks : k ∈ st.get_sorted_filenames := (mem_get_sorted_filenames st k).mpr hk
      cases e : st.get_sorted_filenames with
      | nil =>
        rw [e] at hhd
        exact absurd hhd (by simp)
      | cons a tl =>
        rw [e] at hhd hks
        have ha : a = hd := by simpa using hhd
        subst ha
        rw [e] at hsorted
        rcases List.mem_cons.mp hks with rfl | hmem
        · exact le_refl k
        · exact (List.sorted_cons.mp hsorted).1 k hmem
    · unfold serve_html_root
      rw [hhd]

/-- Witness for C9: on a concrete store the root route serves the head of
the sorted key list. -/
theorem C9_sorted_keys_and_first_document_witness :
    (∀ k ∈ keysOf (sampleState true [("a.md", sampleEntry 5)]).tracked_files,
      "a.md" ≤ k) ∧
    serve_html_root (constFS (.ok 5) (.ok "x")) id
        (sampleState true [("a.md", sampleEntry 5)]) =
      (render_markdown
          (refreshOrKeep (constFS (.ok 5) (.ok "x")) id
            (sampleState true [("a.md", sampleEntry 5)]) "a.md")
          "a.md",
        refreshOrKeep (constFS (.ok 5) (.ok "x")) id
          (sampleState true [("a.md", sampleEntry 5)]) "a.md") :=
  (C9_sorted_keys_and_first_document (constFS (.ok 5) (.ok "x")) id
    (sampleState true [("a.md", sampleEntry 5)])).2.2.2 "a.md" rfl
